import Mathlib

/-!
Shallow embedding of the Sudoku core of this repository (`src/soduko.rs`).

The Rust code models one component: `BoardState`, a 9×9 grid of
`CellState(Option<NonZeroU8>)` cells, with a structural validity check
(`check`, over rows, columns and the nine 3×3 boxes), single-cell mutation
(`set`, `set_pos`), a row-major first-empty-cell scan (`next_cell`) and a
recursive backtracking solver (`solve`).

Embedding conventions:
* a cell is `Option Nat` (`none` = empty, `some d` = digit `d`);
* the board is a function `Fin 9 → Fin 9 → CellState` (the nested fixed-size
  arrays of the source, read through total indexing);
* Rust panics (the `From<u8>` panic arm, slice-index bounds checks) are
  embedded as an `Option` result whose `none` is the panic;
* the recursion of `solve` is driven by a fuel parameter; `solve` passes the
  number of empty cells as fuel, and we prove that this fuel is always
  sufficient, which is exactly the termination argument of the Rust code.
-/

/-- Content of one grid cell: `none` is empty, `some d` holds the digit `d`.
Embeds the Rust `CellState(Option<NonZeroU8>)`; the only constructor the
source exposes, `From<u8>`, stores digits 1..9 only. -/
abbrev CellState := Option Nat

/-- The 9×9 board `BoardState([[CellState; 9]; 9])` as a total function from
(row, column) to cell content. -/
abbrev BoardState := Fin 9 → Fin 9 → CellState

/-- Embeds `impl From<u8> for CellState`: `0` becomes the empty cell,
`1..=9` becomes a cell holding that digit, and `10..` hits the
`panic!("max value in soduku is 9")` arm, embedded as the outer `none`. -/
def fromU8 (value : Nat) : Option CellState :=
  if value = 0 then some none
  else if value ≤ 9 then some (some value)
  else none

/-- Embeds the free function `unique`: for each digit `n` in `1..=9`, count
the cells equal to `Some(n)`; the slice is `unique` when no digit occurs more
than once (the Rust loop early-returns `false` on the first digit counted
twice, which is the same Boolean). -/
def unique (data : List CellState) : Bool :=
  (List.range' 1 9).all fun n => decide (data.count (some n) ≤ 1)

/-- Cell `(i, j)` of the 3×3 box whose origin is `(3*br, 3*bc)`; helper for
the index arithmetic of `BoardState::square`. -/
def boxCell (b : BoardState) (br bc : Fin 3) (i j : Fin 3) : CellState :=
  b ⟨3 * br.val + i.val, by have h1 := br.isLt; have h2 := i.isLt; omega⟩
    ⟨3 * bc.val + j.val, by have h1 := bc.isLt; have h2 := j.isLt; omega⟩

/-- Embeds `BoardState::square`: the nine cells of one 3×3 box, gathered row
by row (the source iterates rows `row..row+3` and takes 3 cells of each,
starting at `col`; call sites pass `row = 3*br`, `col = 3*bc`). -/
def square (b : BoardState) (br bc : Fin 3) : List CellState :=
  (List.finRange 3).flatMap fun i => (List.finRange 3).map fun j => boxCell b br bc i j

/-- Embeds `BoardState::check_boxes`: every one of the nine boxes is
duplicate-free. -/
def check_boxes (b : BoardState) : Bool :=
  (List.finRange 3).all fun br => (List.finRange 3).all fun bc => unique (square b br bc)

/-- Embeds `BoardState::column`: the nine cells of column `c`, gathered by
striding across the rows. -/
def column (b : BoardState) (c : Fin 9) : List CellState :=
  (List.finRange 9).map fun r => b r c

/-- The row array `self.0[r]` of the source, as a list of nine cells. -/
def rowList (b : BoardState) (r : Fin 9) : List CellState :=
  (List.finRange 9).map fun c => b r c

/-- Embeds `BoardState::check_columns`. -/
def check_columns (b : BoardState) : Bool :=
  (List.finRange 9).all fun c => unique (column b c)

/-- Embeds `BoardState::check_rows`. -/
def check_rows (b : BoardState) : Bool :=
  (List.finRange 9).all fun r => unique (rowList b r)

/-- Embeds `BoardState::check`, the public structural validity test. -/
def check (b : BoardState) : Bool :=
  check_rows b && check_columns b && check_boxes b

/-- Row of the cell at row-major linear index `pos` (`row = pos / 9`). -/
def rowOf (pos : Fin 81) : Fin 9 :=
  ⟨pos.val / 9, by have h := pos.isLt; omega⟩

/-- Column of the cell at row-major linear index `pos` (`col = pos % 9`). -/
def colOf (pos : Fin 81) : Fin 9 :=
  ⟨pos.val % 9, by omega⟩

/-- Row-major linear index of cell `(r, c)` (`pos = 9*r + c`), the
enumeration order of `iter().flatten()` over the nested arrays. -/
def posOf (r c : Fin 9) : Fin 81 :=
  ⟨9 * r.val + c.val, by have h1 := r.isLt; have h2 := c.isLt; omega⟩

/-- The cell at row-major linear index `pos` (`row = pos / 9`,
`col = pos % 9`), the coordinate decomposition used by `set_pos` and matching
the `iter().flatten()` order of `next_cell`. -/
def cellAt (b : BoardState) (pos : Fin 81) : CellState :=
  b (rowOf pos) (colOf pos)

/-- Embeds `BoardState::next_cell`: the row-major linear index of the first
empty cell, if any (the source flattens the rows, enumerates, keeps the
indices of the `None` cells and takes the first). -/
def next_cell (b : BoardState) : Option (Fin 81) :=
  (List.finRange 81).find? fun pos => (cellAt b pos).isNone

/-- Writing one cell at in-range coordinates: the assignment
`self.0[row][col] = n` once both index bounds checks have passed. -/
def setCell (b : BoardState) (row col : Fin 9) (n : CellState) : BoardState :=
  fun r c => if r = row ∧ c = col then n else b r c

/-- Embeds `BoardState::set`: `self.0[row][col] = n`. The slice indexing
panics when `row` or `col` is out of range; the panic is the `none` result,
and no cell is written in that case (no board escapes the panic). -/
def BoardState.set (b : BoardState) (row col : Nat) (n : CellState) : Option BoardState :=
  if hr : row < 9 then
    if hc : col < 9 then some (setCell b ⟨row, hr⟩ ⟨col, hc⟩ n) else none
  else none

/-- Embeds `BoardState::set_pos`: decompose `pos` as `row = pos / 9`,
`col = pos % 9` and write through `self.0[row][col]` exactly as `set` does. -/
def set_pos (b : BoardState) (pos : Nat) (n : CellState) : Option BoardState :=
  BoardState.set b (pos / 9) (pos % 9) n

/-- Total form of `set_pos` for indices known to be in range: inside `solve`
the index comes from `next_cell`, which only produces indices of actual
cells, so the bounds checks of `set_pos` cannot fire there. -/
def setPosT (b : BoardState) (pos : Fin 81) (n : CellState) : BoardState :=
  setCell b (rowOf pos) (colOf pos) n

/-- Number of empty cells of the board; the decreasing measure of the
recursion of `solve` (each trial placement fills one empty cell). -/
def countEmpty (b : BoardState) : Nat :=
  (Finset.univ.filter fun p : Fin 81 => cellAt b p = none).card

/-- Fuel-indexed embedding of `BoardState::solve`. A call first re-validates
the board (`if !self.check() { return None }`), then looks for the first
empty cell; if there is none the board is complete and is returned as-is;
otherwise digits 1..=9 are tried in ascending order in that cell and the
first recursive success is returned (`findSome?` is the Rust `for` loop with
its early `return`; each loop iteration overwrites the same cell of the
owned copy, so iteration `d` recurses on the original board with the chosen
cell set to `d`). The fuel only bounds the recursion depth; `solve` passes
enough fuel for the `0` branch to be unreachable. -/
def solveAux (fuel : Nat) (b : BoardState) : Option BoardState :=
  if check b = false then none
  else
    match next_cell b with
    | none => some b
    | some pos =>
      match fuel with
      | 0 => none
      | f + 1 => (List.range' 1 9).findSome? fun d => solveAux f (setPosT b pos (some d))

/-- Embeds `BoardState::solve`: run the backtracking search with the number
of empty cells as fuel (the recursion of the source bottoms out after at
most that many nested calls, as proved below). -/
def solve (b : BoardState) : Option BoardState :=
  solveAux (countEmpty b) b

/-- Embeds `BoardState::solvable`. -/
def solvable (b : BoardState) : Bool :=
  (solve b).isSome

/-- The caller's view of `let r = b.solve();`: `BoardState` is `Copy` and
`solve` takes `self` by value, so the callee works on an owned copy and the
caller keeps `b` unchanged next to the result. -/
def solveCall (b : BoardState) : BoardState × Option BoardState :=
  (b, solve b)

/-- Builds a board from rows of raw digits, `0` meaning empty; test
scaffolding for concrete boards (the UI feeds cells through `From<u8>` the
same way). -/
def mkBoard (l : List (List Nat)) : BoardState :=
  fun r c =>
    let v := (l.getD r.val []).getD c.val 0
    if v = 0 then none else some v

/-- The all-empty board. -/
def emptyBoard : BoardState := fun _ _ => none

/-- A completely solved, valid standard Sudoku grid. -/
def demoBoard : BoardState := mkBoard
  [[5, 3, 4, 6, 7, 8, 9, 1, 2],
   [6, 7, 2, 1, 9, 5, 3, 4, 8],
   [1, 9, 8, 3, 4, 2, 5, 6, 7],
   [8, 5, 9, 7, 6, 1, 4, 2, 3],
   [4, 2, 6, 8, 5, 3, 7, 9, 1],
   [7, 1, 3, 9, 2, 4, 8, 5, 6],
   [9, 6, 1, 5, 3, 7, 2, 8, 4],
   [2, 8, 7, 4, 1, 9, 6, 3, 5],
   [3, 4, 5, 2, 8, 6, 1, 7, 9]]

/-- The grid of `demoBoard` with cell (0,0) cleared to empty. -/
def almostBoard : BoardState := mkBoard
  [[0, 3, 4, 6, 7, 8, 9, 1, 2],
   [6, 7, 2, 1, 9, 5, 3, 4, 8],
   [1, 9, 8, 3, 4, 2, 5, 6, 7],
   [8, 5, 9, 7, 6, 1, 4, 2, 3],
   [4, 2, 6, 8, 5, 3, 7, 9, 1],
   [7, 1, 3, 9, 2, 4, 8, 5, 6],
   [9, 6, 1, 5, 3, 7, 2, 8, 4],
   [2, 8, 7, 4, 1, 9, 6, 3, 5],
   [3, 4, 5, 2, 8, 6, 1, 7, 9]]

/-- A structurally invalid board: two `5`s in row 0 (columns 0 and 1). -/
def twoFivesBoard : BoardState := mkBoard [[5, 5]]

/-- Statement of the spec's data-model invariant on cells: a non-empty cell
holds a digit 1..9 (`Option<NonZeroU8>` populated only through `From<u8>`,
which rejects anything above 9). -/
def WFBoard (b : BoardState) : Prop :=
  ∀ r c : Fin 9, ∀ n : Nat, b r c = some n → 1 ≤ n ∧ n ≤ 9

/-- Decidable reformulation of `WFBoard`, used to discharge the invariant on
concrete boards. -/
def WFBoardB (b : BoardState) : Bool :=
  (List.finRange 9).all fun r => (List.finRange 9).all fun c =>
    (b r c).all fun n => decide (1 ≤ n ∧ n ≤ 9)

/-- Validity in the words of the spec: no row, no column and none of the
nine non-overlapping 3×3 boxes contains two cells holding the same non-empty
digit (the box with box-coordinates `(br, bc)` consists of the cells
`(3*br + i, 3*bc + j)`). This definition is written from the spec sentence,
to be compared with `check`, which is written from the code. -/
def SpecValid (b : BoardState) : Prop :=
  (∀ r c1 c2 : Fin 9, ∀ n : Nat, c1 ≠ c2 → b r c1 = some n → b r c2 = some n → False) ∧
  (∀ c r1 r2 : Fin 9, ∀ n : Nat, r1 ≠ r2 → b r1 c = some n → b r2 c = some n → False) ∧
  (∀ br bc i1 j1 i2 j2 : Fin 3, ∀ n : Nat, (i1, j1) ≠ (i2, j2) →
    boxCell b br bc i1 j1 = some n → boxCell b br bc i2 j2 = some n → False)


lemma rowOf_posOf (r c : Fin 9) : rowOf (posOf r c) = r := by
  have hc := c.isLt
  apply Fin.ext
  show (9 * r.val + c.val) / 9 = r.val
  omega

lemma colOf_posOf (r c : Fin 9) : colOf (posOf r c) = c := by
  have hc := c.isLt
  apply Fin.ext
  show (9 * r.val + c.val) % 9 = c.val
  omega

lemma cellAt_posOf (b : BoardState) (r c : Fin 9) : cellAt b (posOf r c) = b r c := by
  rw [cellAt, rowOf_posOf, colOf_posOf]

lemma cellAt_setPosT (b : BoardState) (p q : Fin 81) (n : CellState) :
    cellAt (setPosT b p n) q = if q = p then n else cellAt b q := by
  unfold cellAt setPosT setCell
  by_cases h : q = p
  · subst h; simp
  · have hne : ¬(rowOf q = rowOf p ∧ colOf q = colOf p) := by
      rintro ⟨h1, h2⟩
      apply h
      have e1 : q.val / 9 = p.val / 9 := congrArg Fin.val h1
      have e2 : q.val % 9 = p.val % 9 := congrArg Fin.val h2
      apply Fin.ext
      omega
    simp [hne, h]

lemma setPosT_apply (b : BoardState) (p : Fin 81) (n : CellState) (r c : Fin 9) :
    setPosT b p n r c = if posOf r c = p then n else b r c := by
  have h := cellAt_setPosT b p (posOf r c) n
  rw [cellAt_posOf, cellAt_posOf] at h
  exact h

lemma find?_first {α : Type} (p : α → Bool) :
    ∀ (l : List α) (x : α), l.find? p = some x →
      ∃ i : Nat, ∃ hi : i < l.length, l.get ⟨i, hi⟩ = x ∧ p x = true ∧
        ∀ j : Nat, ∀ hj : j < l.length, j < i → p (l.get ⟨j, hj⟩) = false := by
  intro l
  induction l with
  | nil => intro x h; simp at h
  | cons a l ih =>
    intro x h
    by_cases ha : p a
    · rw [List.find?_cons_of_pos _ ha] at h
      have hax : a = x := by injection h
      subst hax
      exact ⟨0, by simp, rfl, ha, fun j hj hji => absurd hji (by omega)⟩
    · rw [List.find?_cons_of_neg _ ha] at h
      obtain ⟨i, hi, hg, hp, hall⟩ := ih x h
      have hi1 : i + 1 < (a :: l).length := by simp only [List.length_cons]; omega
      refine ⟨i + 1, hi1, by simpa using hg, hp, ?_⟩
      intro j hj hji
      match j, hj with
      | 0, h0 => simpa using ha
      | k + 1, hk =>
        have hk' : k < l.length := by simp only [List.length_cons] at hk; omega
        have := hall k hk' (by omega)
        simpa using this

lemma next_cell_some {b : BoardState} {pos : Fin 81} (h : next_cell b = some pos) :
    cellAt b pos = none ∧ ∀ q : Fin 81, q.val < pos.val → cellAt b q ≠ none := by
  obtain ⟨i, hi, hget, hp, hall⟩ := find?_first _ _ _ h
  rw [List.get_finRange] at hget
  have hposval : pos.val = i := (congrArg Fin.val hget).symm
  refine ⟨Option.isNone_iff_eq_none.mp hp, ?_⟩
  intro q hq hnone
  have hq81 : q.val < (List.finRange 81).length := by simp
  have hfalse := hall q.val hq81 (by omega)
  rw [List.get_finRange] at hfalse
  have heq : (⟨q.val, by simp⟩ : Fin 81) = q := Fin.ext rfl
  rw [heq] at hfalse
  simp [hnone] at hfalse

lemma next_cell_none {b : BoardState} (h : next_cell b = none) :
    ∀ p : Fin 81, cellAt b p ≠ none := by
  rw [next_cell, List.find?_eq_none] at h
  intro p hp
  exact h p (List.mem_finRange p) (by simp [hp])

lemma countEmpty_le (b : BoardState) : countEmpty b ≤ 81 := by
  rw [countEmpty]
  calc (Finset.univ.filter fun p : Fin 81 => cellAt b p = none).card
      ≤ Finset.univ.card := Finset.card_filter_le _ _
    _ = 81 := by simp

lemma countEmpty_pos {b : BoardState} {p : Fin 81} (h : cellAt b p = none) :
    0 < countEmpty b := by
  rw [countEmpty]
  exact Finset.card_pos.mpr ⟨p, by simp [h]⟩

lemma countEmpty_setPosT {b : BoardState} {p : Fin 81} (h : cellAt b p = none) (d : Nat) :
    countEmpty (setPosT b p (some d)) = countEmpty b - 1 := by
  rw [countEmpty, countEmpty]
  have hset : (Finset.univ.filter fun q : Fin 81 => cellAt (setPosT b p (some d)) q = none)
      = (Finset.univ.filter fun q : Fin 81 => cellAt b q = none).erase p := by
    ext q
    by_cases hq : q = p
    · subst hq
      simp [cellAt_setPosT]
    · simp [Finset.mem_erase, cellAt_setPosT, hq]
  rw [hset, Finset.card_erase_of_mem (by simp [h])]

lemma countEmpty_eq_zero {b : BoardState} (h : next_cell b = none) : countEmpty b = 0 := by
  rw [countEmpty, Finset.card_eq_zero, Finset.filter_eq_empty_iff]
  intro p _
  exact next_cell_none h p

lemma solveAux_eq (fuel : Nat) (b : BoardState) :
    solveAux fuel b = if check b = false then none
      else match next_cell b with
        | none => some b
        | some pos =>
          match fuel with
          | 0 => none
          | f + 1 => (List.range' 1 9).findSome? fun d => solveAux f (setPosT b pos (some d)) := by
  conv_lhs => rw [solveAux]

lemma solveAux_invalid {b : BoardState} (h : check b = false) (fuel : Nat) :
    solveAux fuel b = none := by
  rw [solveAux_eq, h]
  simp

lemma solveAux_complete {b : BoardState} (h1 : check b = true) (h2 : next_cell b = none)
    (fuel : Nat) : solveAux fuel b = some b := by
  rw [solveAux_eq, h1, h2]
  simp

lemma next_cell_of_countEmpty {b : BoardState} (h : countEmpty b = 0) : next_cell b = none := by
  cases hnext : next_cell b with
  | none => rfl
  | some pos =>
    have := countEmpty_pos (next_cell_some hnext).1
    omega

lemma solveAux_sound : ∀ (fuel : Nat) (b s : BoardState), solveAux fuel b = some s →
    check s = true ∧ next_cell s = none ∧ ∀ r c : Fin 9, b r c ≠ none → s r c = b r c := by
  intro fuel
  induction fuel with
  | zero =>
    intro b s h
    rw [solveAux_eq] at h
    by_cases hc : check b = false
    · rw [if_pos hc] at h
      exact Option.noConfusion h
    · rw [if_neg hc] at h
      simp only [Bool.not_eq_false] at hc
      cases hnext : next_cell b with
      | none =>
        rw [hnext] at h
        have hbs : b = s := Option.some.inj h
        subst hbs
        exact ⟨hc, hnext, fun r c _ => rfl⟩
      | some pos =>
        rw [hnext] at h
        exact Option.noConfusion h
  | succ f ih =>
    intro b s h
    rw [solveAux_eq] at h
    by_cases hc : check b = false
    · rw [if_pos hc] at h
      exact Option.noConfusion h
    · rw [if_neg hc] at h
      simp only [Bool.not_eq_false] at hc
      cases hnext : next_cell b with
      | none =>
        rw [hnext] at h
        have hbs : b = s := Option.some.inj h
        subst hbs
        exact ⟨hc, hnext, fun r c _ => rfl⟩
      | some pos =>
        rw [hnext] at h
        obtain ⟨d, hd, hsol⟩ := List.exists_of_findSome?_eq_some h
        obtain ⟨hcheck, hnexts, hpres⟩ := ih (setPosT b pos (some d)) s hsol
        refine ⟨hcheck, hnexts, ?_⟩
        intro r c hrc
        have hposne : posOf r c ≠ pos := by
          intro he
          have hcell := (next_cell_some hnext).1
          rw [← he, cellAt_posOf] at hcell
          exact hrc hcell
        have hchild : setPosT b pos (some d) r c = b r c := by
          rw [setPosT_apply, if_neg hposne]
        rw [← hchild]
        exact hpres r c (by rw [hchild]; exact hrc)

lemma solveAux_fuel_irrel : ∀ (f1 f2 : Nat) (b : BoardState),
    countEmpty b ≤ f1 → countEmpty b ≤ f2 → solveAux f1 b = solveAux f2 b := by
  intro f1
  induction f1 with
  | zero =>
    intro f2 b h1 h2
    have h0 : countEmpty b = 0 := by omega
    have hnext := next_cell_of_countEmpty h0
    by_cases hc : check b = false
    · rw [solveAux_invalid hc, solveAux_invalid hc]
    · simp only [Bool.not_eq_false] at hc
      rw [solveAux_complete hc hnext, solveAux_complete hc hnext]
  | succ f ih =>
    intro f2 b h1 h2
    by_cases hc : check b = false
    · rw [solveAux_invalid hc, solveAux_invalid hc]
    · simp only [Bool.not_eq_false] at hc
      cases hnext : next_cell b with
      | none => rw [solveAux_complete hc hnext, solveAux_complete hc hnext]
      | some pos =>
        have hcell := (next_cell_some hnext).1
        have hpos : 0 < countEmpty b := countEmpty_pos hcell
        obtain ⟨f2p, rfl⟩ : ∃ k, f2 = k + 1 := ⟨f2 - 1, by omega⟩
        rw [solveAux_eq (f + 1), solveAux_eq (f2p + 1), hc, hnext]
        simp only [Bool.true_eq_false, if_false]
        apply congrArg (fun fn => List.findSome? fn (List.range' 1 9))
        funext d
        have hchild : countEmpty (setPosT b pos (some d)) = countEmpty b - 1 :=
          countEmpty_setPosT hcell d
        exact ih f2p (setPosT b pos (some d)) (by omega) (by omega)

lemma solve_eq_solveAux {b : BoardState} {fuel : Nat} (h : countEmpty b ≤ fuel) :
    solveAux fuel b = solve b :=
  solveAux_fuel_irrel fuel (countEmpty b) b h le_rfl

lemma solve_unfold {b : BoardState} {pos : Fin 81} (h1 : check b = true)
    (h2 : next_cell b = some pos) :
    solve b = (List.range' 1 9).findSome? fun d => solve (setPosT b pos (some d)) := by
  have hcell := (next_cell_some h2).1
  have hpos : 0 < countEmpty b := countEmpty_pos hcell
  obtain ⟨k, hk⟩ : ∃ k, countEmpty b = k + 1 := ⟨countEmpty b - 1, by omega⟩
  rw [solve, hk, solveAux_eq, h1, h2]
  simp only [Bool.true_eq_false, if_false]
  apply congrArg (fun fn => List.findSome? fn (List.range' 1 9))
  funext d
  have hchild : countEmpty (setPosT b pos (some d)) = countEmpty b - 1 :=
    countEmpty_setPosT hcell d
  exact solve_eq_solveAux (by omega)

lemma count_le_one_iff {α : Type} [BEq α] [LawfulBEq α] (x : α) :
    ∀ l : List α, l.count x ≤ 1 ↔
      ∀ i j : Nat, ∀ hi : i < l.length, ∀ hj : j < l.length,
        l.get ⟨i, hi⟩ = x → l.get ⟨j, hj⟩ = x → i = j := by
  intro l
  induction l with
  | nil => simp
  | cons a l ih =>
    by_cases hax : x = a
    · subst hax
      rw [List.count_cons_self]
      constructor
      · intro h i j hi hj hgi hgj
        have hc0 : l.count x = 0 := by omega
        have hnotmem : x ∉ l := List.count_eq_zero.mp hc0
        have hzero : ∀ k : Nat, ∀ hk : k < (x :: l).length, (x :: l).get ⟨k, hk⟩ = x → k = 0 := by
          intro k hk hg
          match k, hk with
          | 0, _ => rfl
          | m + 1, hk =>
            exfalso
            apply hnotmem
            rw [← hg, List.get_cons_succ]
            exact l.get_mem _ _
        rw [hzero i hi hgi, hzero j hj hgj]
      · intro h
        by_contra hgt
        have hmem : x ∈ l := List.count_pos_iff.mp (by omega)
        obtain ⟨⟨m, hm⟩, hg⟩ := List.mem_iff_get.mp hmem
        have h0 := h 0 (m + 1) (by simp) (by simp only [List.length_cons]; omega) rfl
          (by rw [List.get_cons_succ]; exact hg)
        omega
    · rw [List.count_cons_of_ne hax]
      constructor
      · intro h i j hi hj hgi hgj
        match i, j, hi, hj with
        | 0, 0, _, _ => rfl
        | 0, k + 1, _, _ => exact absurd hgi (Ne.symm hax)
        | m + 1, 0, _, _ => exact absurd hgj (Ne.symm hax)
        | m + 1, k + 1, hm, hk =>
          have hm' : m < l.length := by simp only [List.length_cons] at hm; omega
          have hk' : k < l.length := by simp only [List.length_cons] at hk; omega
          have := (ih.mp h) m k hm' hk' (by rw [← List.get_cons_succ (a := a) (h := hm)]; exact hgi)
            (by rw [← List.get_cons_succ (a := a) (h := hk)]; exact hgj)
          omega
      · intro h
        apply ih.mpr
        intro i j hi hj hgi hgj
        have h1 : i + 1 < (a :: l).length := by simp only [List.length_cons]; omega
        have h2 : j + 1 < (a :: l).length := by simp only [List.length_cons]; omega
        have := h (i + 1) (j + 1) h1 h2 (by rw [List.get_cons_succ]; exact hgi)
          (by rw [List.get_cons_succ]; exact hgj)
        omega

lemma square_eq_map (b : BoardState) (br bc : Fin 3) :
    square b br bc = (List.finRange 9).map fun k =>
      boxCell b br bc ⟨k.val / 3, by have := k.isLt; omega⟩ ⟨k.val % 3, by omega⟩ := by
  rfl

lemma unique_map_iff (f : Fin 9 → CellState)
    (hwf : ∀ i : Fin 9, ∀ n : Nat, f i = some n → 1 ≤ n ∧ n ≤ 9) :
    unique ((List.finRange 9).map f) = true ↔
      ∀ i j : Fin 9, ∀ n : Nat, f i = some n → f j = some n → i = j := by
  have hget : ∀ (k : Nat) (hk : k < ((List.finRange 9).map f).length),
      ((List.finRange 9).map f).get ⟨k, hk⟩ = f ⟨k, by simpa using hk⟩ := by
    intro k hk
    rw [List.get_eq_getElem, List.getElem_map]
    simp
  rw [unique, List.all_eq_true]
  constructor
  · intro h i j n hfi hfj
    have hn := hwf i n hfi
    have hmem : n ∈ List.range' 1 9 := by
      rw [List.mem_range']
      exact ⟨n - 1, by omega, by omega⟩
    have hcount := of_decide_eq_true (h n hmem)
    rw [count_le_one_iff] at hcount
    have hi9 : i.val < ((List.finRange 9).map f).length := by simp
    have hj9 : j.val < ((List.finRange 9).map f).length := by simp
    have hvals := hcount i.val j.val hi9 hj9
      (by rw [hget]; simpa using hfi) (by rw [hget]; simpa using hfj)
    exact Fin.ext hvals
  · intro h n hmem
    apply decide_eq_true
    rw [count_le_one_iff]
    intro i j hi hj hgi hgj
    rw [hget] at hgi hgj
    have := h _ _ n hgi hgj
    exact congrArg Fin.val this

lemma check_rows_iff {b : BoardState} (hwf : WFBoard b) : check_rows b = true ↔
    ∀ r c1 c2 : Fin 9, ∀ n : Nat, b r c1 = some n → b r c2 = some n → c1 = c2 := by
  rw [check_rows, List.all_eq_true]
  constructor
  · intro h r c1 c2 n h1 h2
    exact (unique_map_iff (fun c => b r c) (fun i n hi => hwf r i n hi)).mp
      (h r (List.mem_finRange r)) c1 c2 n h1 h2
  · intro h r _
    exact (unique_map_iff (fun c => b r c) (fun i n hi => hwf r i n hi)).mpr
      (fun i j n hi hj => h r i j n hi hj)

lemma check_columns_iff {b : BoardState} (hwf : WFBoard b) : check_columns b = true ↔
    ∀ c r1 r2 : Fin 9, ∀ n : Nat, b r1 c = some n → b r2 c = some n → r1 = r2 := by
  rw [check_columns, List.all_eq_true]
  constructor
  · intro h c r1 r2 n h1 h2
    exact (unique_map_iff (fun r => b r c) (fun i n hi => hwf i c n hi)).mp
      (h c (List.mem_finRange c)) r1 r2 n h1 h2
  · intro h c _
    exact (unique_map_iff (fun r => b r c) (fun i n hi => hwf i c n hi)).mpr
      (fun i j n hi hj => h c i j n hi hj)

lemma check_boxes_iff {b : BoardState} (hwf : WFBoard b) : check_boxes b = true ↔
    ∀ br bc i1 j1 i2 j2 : Fin 3, ∀ n : Nat,
      boxCell b br bc i1 j1 = some n → boxCell b br bc i2 j2 = some n →
        i1 = i2 ∧ j1 = j2 := by
  rw [check_boxes, List.all_eq_true]
  have hsq : ∀ br bc : Fin 3, unique (square b br bc) = true ↔
      ∀ k1 k2 : Fin 9, ∀ n : Nat,
        boxCell b br bc ⟨k1.val / 3, by have := k1.isLt; omega⟩ ⟨k1.val % 3, by omega⟩ = some n →
        boxCell b br bc ⟨k2.val / 3, by have := k2.isLt; omega⟩ ⟨k2.val % 3, by omega⟩ = some n →
          k1 = k2 := by
    intro br bc
    rw [square_eq_map]
    exact unique_map_iff _ (fun k n hk => hwf _ _ n hk)
  constructor
  · intro h br bc i1 j1 i2 j2 n h1 h2
    have hall := (hsq br bc).mp ((List.all_eq_true.mp (h br (List.mem_finRange br)))
      bc (List.mem_finRange bc))
    have hj1 := j1.isLt
    have hj2 := j2.isLt
    have hg1 : boxCell b br bc ⟨(3 * i1.val + j1.val) / 3, by have := i1.isLt; omega⟩
        ⟨(3 * i1.val + j1.val) % 3, by omega⟩ = boxCell b br bc i1 j1 := by
      congr 1
      · exact Fin.ext (show (3 * i1.val + j1.val) / 3 = i1.val by omega)
      · exact Fin.ext (show (3 * i1.val + j1.val) % 3 = j1.val by omega)
    have hg2 : boxCell b br bc ⟨(3 * i2.val + j2.val) / 3, by have := i2.isLt; omega⟩
        ⟨(3 * i2.val + j2.val) % 3, by omega⟩ = boxCell b br bc i2 j2 := by
      congr 1
      · exact Fin.ext (show (3 * i2.val + j2.val) / 3 = i2.val by omega)
      · exact Fin.ext (show (3 * i2.val + j2.val) % 3 = j2.val by omega)
    have hk := hall ⟨3 * i1.val + j1.val, by have := i1.isLt; omega⟩
      ⟨3 * i2.val + j2.val, by have := i2.isLt; omega⟩ n
      (by rw [hg1]; exact h1) (by rw [hg2]; exact h2)
    have hv : 3 * i1.val + j1.val = 3 * i2.val + j2.val := congrArg Fin.val hk
    exact ⟨Fin.ext (by omega), Fin.ext (by omega)⟩
  · intro h br _
    rw [List.all_eq_true]
    intro bc _
    rw [hsq br bc]
    intro k1 k2 n h1 h2
    obtain ⟨hi, hj⟩ := h br bc _ _ _ _ n h1 h2
    have hvi : k1.val / 3 = k2.val / 3 := congrArg Fin.val hi
    have hvj : k1.val % 3 = k2.val % 3 := congrArg Fin.val hj
    apply Fin.ext
    omega

lemma WFBoard_of_bool {b : BoardState} (h : WFBoardB b = true) : WFBoard b := by
  rw [WFBoardB, List.all_eq_true] at h
  intro r c n hn
  have h1 := h r (List.mem_finRange r)
  rw [List.all_eq_true] at h1
  have h2 := h1 c (List.mem_finRange c)
  rw [hn] at h2
  simpa using h2

/-- C1: whenever `solve` returns a solution board `S`, then `S` has no empty
cells, `check` holds on `S`, and every cell that was non-empty in the input
board holds the same digit in `S` (the solver fills empty cells only). -/
theorem solve_sound_spec (b s : BoardState) (h : solve b = some s) :
    (∀ r c : Fin 9, s r c ≠ none) ∧ check s = true ∧
      ∀ r c : Fin 9, b r c ≠ none → s r c = b r c := by
  obtain ⟨hcheck, hnext, hpres⟩ := solveAux_sound (countEmpty b) b s h
  refine ⟨?_, hcheck, hpres⟩
  intro r c hrc
  have := next_cell_none hnext (posOf r c)
  rw [cellAt_posOf] at this
  exact this hrc

theorem solve_sound_spec_witness :
    solve almostBoard = some (setPosT almostBoard ⟨0, by omega⟩ (some 5)) ∧
      ((∀ r c : Fin 9, setPosT almostBoard ⟨0, by omega⟩ (some 5) r c ≠ none) ∧
        check (setPosT almostBoard ⟨0, by omega⟩ (some 5)) = true ∧
        ∀ r c : Fin 9, almostBoard r c ≠ none →
          setPosT almostBoard ⟨0, by omega⟩ (some 5) r c = almostBoard r c) :=
  ⟨rfl, solve_sound_spec almostBoard (setPosT almostBoard ⟨0, by omega⟩ (some 5)) rfl⟩

/-- C2: `check` returns `true` exactly when no row, no column and none of
the nine 3×3 boxes contains two cells holding the same non-empty digit
(`SpecValid`, written from the spec's words); the board is assumed to
satisfy the cell invariant `WFBoard` (digits are 1..9), which is what
`CellState`'s only constructor allows. -/
theorem check_iff_specValid (b : BoardState) (hwf : WFBoard b) :
    check b = true ↔ SpecValid b := by
  rw [check, Bool.and_eq_true, Bool.and_eq_true,
    check_rows_iff hwf, check_columns_iff hwf, check_boxes_iff hwf]
  constructor
  · rintro ⟨⟨hr, hc⟩, hb⟩
    refine ⟨?_, ?_, ?_⟩
    · intro r c1 c2 n hne h1 h2
      exact hne (hr r c1 c2 n h1 h2)
    · intro c r1 r2 n hne h1 h2
      exact hne (hc c r1 r2 n h1 h2)
    · intro br bc i1 j1 i2 j2 n hne h1 h2
      obtain ⟨hi, hj⟩ := hb br bc i1 j1 i2 j2 n h1 h2
      exact hne (by rw [hi, hj])
  · rintro ⟨hr, hc, hb⟩
    refine ⟨⟨?_, ?_⟩, ?_⟩
    · intro r c1 c2 n h1 h2
      by_contra hne
      exact hr r c1 c2 n hne h1 h2
    · intro c r1 r2 n h1 h2
      by_contra hne
      exact hc c r1 r2 n hne h1 h2
    · intro br bc i1 j1 i2 j2 n h1 h2
      constructor
      · by_contra hne
        exact hb br bc i1 j1 i2 j2 n (fun hp => hne (congrArg Prod.fst hp)) h1 h2
      · by_contra hne
        exact hb br bc i1 j1 i2 j2 n (fun hp => hne (congrArg Prod.snd hp)) h1 h2

theorem check_iff_specValid_witness :
    WFBoard twoFivesBoard ∧ (check twoFivesBoard = true ↔ SpecValid twoFivesBoard) :=
  ⟨WFBoard_of_bool (by decide), check_iff_specValid twoFivesBoard (WFBoard_of_bool (by decide))⟩

/-- C3: a structurally invalid board is rejected immediately: `solve`
returns `none`, and so does `solveAux` at every fuel, including fuel 0
(no search step and no cell placement is needed to produce the failure). -/
theorem solve_invalid_spec (b : BoardState) (h : check b = false) :
    solve b = none ∧ ∀ fuel : Nat, solveAux fuel b = none :=
  ⟨solveAux_invalid h (countEmpty b), fun fuel => solveAux_invalid h fuel⟩

theorem solve_invalid_spec_witness :
    check twoFivesBoard = false ∧
      (solve twoFivesBoard = none ∧ ∀ fuel : Nat, solveAux fuel twoFivesBoard = none) :=
  ⟨by decide, solve_invalid_spec twoFivesBoard (by decide)⟩

/-- C4: the caller's board survives a call to `solve` unchanged (`solve`
consumes an owned copy of the `Copy` receiver, modelled by `solveCall`),
and on failure only the bare `none` signal comes back, while any returned
board is a complete, valid solution, never a partially filled board. -/
theorem solve_preserves_caller (b : BoardState) :
    (solveCall b).1 = b ∧
      ((solveCall b).2 = none ∨ ∃ s, (solveCall b).2 = some s ∧
        (∀ r c : Fin 9, s r c ≠ none) ∧ check s = true) := by
  refine ⟨rfl, ?_⟩
  cases hsol : solve b with
  | none => exact Or.inl hsol
  | some s =>
    obtain ⟨hcheck, hnext, _⟩ := solveAux_sound (countEmpty b) b s hsol
    refine Or.inr ⟨s, hsol, ?_, hcheck⟩
    intro r c hrc
    have := next_cell_none hnext (posOf r c)
    rw [cellAt_posOf] at this
    exact this hrc

/-- C5: the search order of `solve` is fixed: the chosen cell is the first
empty cell in row-major order (every smaller linear index is non-empty),
and the result is the first success among the candidate digits 1..9 tried
in ascending order on that cell; `solve` is a function of the board, so the
result is determined by the input. -/
theorem solve_search_order (b : BoardState) (pos : Fin 81) (h1 : check b = true)
    (h2 : next_cell b = some pos) :
    cellAt b pos = none ∧ (∀ q : Fin 81, q.val < pos.val → cellAt b q ≠ none) ∧
      solve b = (List.range' 1 9).findSome? fun d => solve (setPosT b pos (some d)) :=
  ⟨(next_cell_some h2).1, (next_cell_some h2).2, solve_unfold h1 h2⟩

theorem solve_search_order_witness :
    check emptyBoard = true ∧ next_cell emptyBoard = some 0 ∧
      (cellAt emptyBoard 0 = none ∧
        (∀ q : Fin 81, q.val < (0 : Fin 81).val → cellAt emptyBoard q ≠ none) ∧
        solve emptyBoard =
          (List.range' 1 9).findSome? fun d => solve (setPosT emptyBoard 0 (some d))) :=
  ⟨by decide, by decide, solve_search_order emptyBoard 0 (by decide) (by decide)⟩

/-- C6: termination of the recursion: a board always has at most 81 empty
cells, every trial placement of a digit into the chosen empty cell strictly
decreases the number of empty cells, and 81 units of fuel (the bound on the
recursion depth) already make `solveAux` agree with `solve`. -/
theorem solve_terminates (b : BoardState) (pos : Fin 81) (h : next_cell b = some pos) :
    countEmpty b ≤ 81 ∧
      (∀ d : Nat, countEmpty (setPosT b pos (some d)) < countEmpty b) ∧
      solveAux 81 b = solve b := by
  have hcell := (next_cell_some h).1
  have hpos := countEmpty_pos hcell
  refine ⟨countEmpty_le b, ?_, solve_eq_solveAux (countEmpty_le b)⟩
  intro d
  rw [countEmpty_setPosT hcell d]
  omega

theorem solve_terminates_witness :
    next_cell emptyBoard = some 0 ∧
      (countEmpty emptyBoard ≤ 81 ∧
        (∀ d : Nat, countEmpty (setPosT emptyBoard 0 (some d)) < countEmpty emptyBoard) ∧
        solveAux 81 emptyBoard = solve emptyBoard) :=
  ⟨by decide, solve_terminates emptyBoard 0 (by decide)⟩

/-- C7: the digit-to-cell conversion (`From<u8>`) panics exactly on inputs
10 and above, produces the empty cell exactly on input 0, and stores a
digit `d` exactly when the input was that digit and it lies in 1..9 — so no
out-of-range digit is ever clamped or stored. -/
theorem fromU8_spec (v : Nat) :
    (fromU8 v = none ↔ 10 ≤ v) ∧ (fromU8 v = some none ↔ v = 0) ∧
      ∀ d : Nat, fromU8 v = some (some d) ↔ v = d ∧ 1 ≤ d ∧ d ≤ 9 := by
  unfold fromU8
  split_ifs with h1 h2
  · subst h1
    refine ⟨by simp, by simp, ?_⟩
    intro d
    constructor
    · intro hh
      exact absurd (Option.some.inj hh) (by simp)
    · rintro ⟨rfl, hd, _⟩
      omega
  · refine ⟨by simp; omega, ?_, ?_⟩
    · constructor
      · intro hh
        exact absurd (Option.some.inj hh) (by simp)
      · intro hh
        exact absurd hh h1
    · intro d
      constructor
      · intro hh
        have hvd : (some v : CellState) = some d := Option.some.inj hh
        have hvd2 : v = d := Option.some.inj hvd
        exact ⟨hvd2, by omega, by omega⟩
      · rintro ⟨rfl, _, _⟩
        rfl
  · refine ⟨by simp; omega, ?_, ?_⟩
    · constructor
      · intro hh
        exact absurd hh (by simp)
      · intro hh
        omega
    · intro d
      constructor
      · intro hh
        exact absurd hh (by simp)
      · rintro ⟨rfl, _, _⟩
        omega

/-- C8: `set_pos pos n` is the same operation as `set (pos / 9) (pos % 9) n`;
for an in-range index it writes the addressed cell with `n` and leaves the
other 80 cells untouched. -/
theorem set_pos_eq_set (b : BoardState) (pos : Nat) (n : CellState) (h : pos < 81) :
    set_pos b pos n = BoardState.set b (pos / 9) (pos % 9) n ∧
      ∃ b2 : BoardState, set_pos b pos n = some b2 ∧
        b2 (rowOf ⟨pos, h⟩) (colOf ⟨pos, h⟩) = n ∧
        ∀ r c : Fin 9, r.val ≠ pos / 9 ∨ c.val ≠ pos % 9 → b2 r c = b r c := by
  refine ⟨rfl, setCell b ⟨pos / 9, by omega⟩ ⟨pos % 9, by omega⟩ n, ?_, ?_, ?_⟩
  · unfold set_pos BoardState.set
    rw [dif_pos (by omega : pos / 9 < 9), dif_pos (by omega : pos % 9 < 9)]
  · show (if rowOf ⟨pos, h⟩ = ⟨pos / 9, by omega⟩ ∧ colOf ⟨pos, h⟩ = ⟨pos % 9, by omega⟩
        then n else b (rowOf ⟨pos, h⟩) (colOf ⟨pos, h⟩)) = n
    rw [if_pos ⟨rfl, rfl⟩]
  · intro r c hor
    show (if r = ⟨pos / 9, by omega⟩ ∧ c = ⟨pos % 9, by omega⟩ then n else b r c) = b r c
    rw [if_neg]
    rintro ⟨hr, hc⟩
    rcases hor with hv | hv
    · exact hv (congrArg Fin.val hr)
    · exact hv (congrArg Fin.val hc)

theorem set_pos_eq_set_witness :
    10 < 81 ∧
      (set_pos emptyBoard 10 (some 5) = BoardState.set emptyBoard (10 / 9) (10 % 9) (some 5) ∧
        ∃ b2 : BoardState, set_pos emptyBoard 10 (some 5) = some b2 ∧
          b2 (rowOf ⟨10, by omega⟩) (colOf ⟨10, by omega⟩) = some 5 ∧
          ∀ r c : Fin 9, r.val ≠ 10 / 9 ∨ c.val ≠ 10 % 9 → b2 r c = emptyBoard r c) :=
  ⟨by omega, set_pos_eq_set emptyBoard 10 (some 5) (by omega)⟩

/-- C9: a board that is already complete (no empty cell) and valid is
returned by `solve` exactly as it is, and hence re-solving the solved board
changes nothing: `solve(solve(B)) = solve(B)` in the `Option` monad. -/
theorem solve_idem (b : BoardState) (h1 : next_cell b = none) (h2 : check b = true) :
    solve b = some b ∧ (solve b).bind solve = solve b := by
  have hsb : solve b = some b := solveAux_complete h2 h1 (countEmpty b)
  refine ⟨hsb, ?_⟩
  rw [hsb]
  show solve b = some b
  exact hsb

theorem solve_idem_witness :
    next_cell demoBoard = none ∧ check demoBoard = true ∧
      (solve demoBoard = some demoBoard ∧
        (solve demoBoard).bind solve = solve demoBoard) :=
  ⟨by decide, by decide, solve_idem demoBoard (by decide) (by decide)⟩

/-- C10: an out-of-range write is a deterministic panic, not undefined
behavior: `set` with a row or column at 9 or above, and `set_pos` with an
index at 81 or above, hit the slice bounds check and return the panic
signal; no board is produced, so no cell was written. -/
theorem set_out_of_range (b : BoardState) (row col pos : Nat) (n : CellState)
    (h1 : 9 ≤ row ∨ 9 ≤ col) (h2 : 81 ≤ pos) :
    BoardState.set b row col n = none ∧ set_pos b pos n = none := by
  constructor
  · unfold BoardState.set
    rcases h1 with h | h
    · rw [dif_neg (by omega)]
    · by_cases hr : row < 9
      · rw [dif_pos hr, dif_neg (by omega)]
      · rw [dif_neg hr]
  · unfold set_pos BoardState.set
    rw [dif_neg (by omega : ¬pos / 9 < 9)]

theorem set_out_of_range_witness :
    (9 ≤ 9 ∨ 9 ≤ 0) ∧ 81 ≤ 81 ∧
      (BoardState.set emptyBoard 9 0 (some 1) = none ∧ set_pos emptyBoard 81 (some 1) = none) :=
  ⟨Or.inl (by omega), by omega, set_out_of_range emptyBoard 9 0 81 (some 1) (Or.inl (by omega)) (by omega)⟩
